import Mathlib

set_option maxRecDepth 100000

/-!
# Verification of the ascii-art repository's data-model core

A shallow embedding, at the byte level, of `src/ascii-art.py`:

* Python `bytes` and `str` values are both modelled as `List Nat` of byte
  values.  Every string this program stores or parses is handled through
  its UTF-8 byte sequence; the byte-level operations used by the code
  (splitting on `'\n'` = byte 10, testing for `' '` = byte 32, containment,
  concatenation, equality) coincide with the corresponding Python `str`
  operations on the UTF-8 encoding, because bytes 10 and 32 never occur
  inside a multi-byte UTF-8 character.
* Library calls (`base64.b64encode`/`b64decode`, `hashlib.sha1`,
  `json.dumps`/`loads`, `textwrap.wrap`, file `readlines`) are modelled by
  executable Lean functions whose behaviour matches the library on the
  inputs this program feeds them; each model's doc comment states its scope.
* Fallible operations (raising Python exceptions) return `Option`.
-/

namespace AsciiArtSrc

/-! ## Base64 (`base64.b64encode` / `base64.b64decode(validate=True)`) -/

/-- The base64 alphabet as a byte table: value `n < 64` maps to the byte of
its base64 digit (`A-Z`, `a-z`, `0-9`, `+`, `/`). -/
def alpha (n : Nat) : Nat :=
  if n < 26 then 65 + n
  else if n < 52 then 97 + (n - 26)
  else if n < 62 then 48 + (n - 52)
  else if n = 62 then 43 else 47

/-- Inverse of the base64 alphabet: digit byte to 6-bit value, `none` for a
byte outside the alphabet (including the pad byte `'='` = 61). -/
def b64val (c : Nat) : Option Nat :=
  if 65 ≤ c ∧ c ≤ 90 then some (c - 65)
  else if 97 ≤ c ∧ c ≤ 122 then some (26 + (c - 97))
  else if 48 ≤ c ∧ c ≤ 57 then some (52 + (c - 48))
  else if c = 43 then some 62
  else if c = 47 then some 63
  else none

/-- Models `base64.b64encode`: bytes to the byte string of base64 digits,
three input bytes per four output digits, `'='`-padded. -/
def b64encode : List Nat → List Nat
  | [] => []
  | [b1] => [alpha (b1 / 4), alpha (b1 % 4 * 16), 61, 61]
  | [b1, b2] => [alpha (b1 / 4), alpha (b1 % 4 * 16 + b2 / 16), alpha (b2 % 16 * 4), 61]
  | b1 :: b2 :: b3 :: rest =>
      alpha (b1 / 4) :: alpha (b1 % 4 * 16 + b2 / 16)
        :: alpha (b2 % 16 * 4 + b3 / 64) :: alpha (b3 % 64) :: b64encode rest

/-- Models `base64.b64decode(s, validate=True)`: the input must consist of
whole four-byte groups of alphabet digits, with `'='`-padding allowed only
at the very end; anything else raises `binascii.Error`, modelled as `none`. -/
def b64decode : List Nat → Option (List Nat)
  | [] => some []
  | c1 :: c2 :: c3 :: c4 :: rest =>
      match b64val c1, b64val c2 with
      | some v1, some v2 =>
          if c3 = 61 ∧ c4 = 61 ∧ rest = [] then
            some [v1 * 4 + v2 / 16]
          else
            match b64val c3 with
            | some v3 =>
                if c4 = 61 ∧ rest = [] then
                  some [v1 * 4 + v2 / 16, v2 % 16 * 16 + v3 / 4]
                else
                  match b64val c4 with
                  | some v4 =>
                      (b64decode rest).map
                        (fun tl => (v1 * 4 + v2 / 16) :: (v2 % 16 * 16 + v3 / 4)
                          :: (v3 % 4 * 64 + v4) :: tl)
                  | none => none
            | none => none
      | _, _ => none
  | _ => none

theorem b64val_alpha_lt : ∀ v < 64, b64val (alpha v) = some v := by decide

theorem b64val_alpha {v : Nat} (h : v < 64) : b64val (alpha v) = some v :=
  b64val_alpha_lt v h

theorem alpha_range (v : Nat) :
    alpha v = 43 ∨ alpha v = 47 ∨ (48 ≤ alpha v ∧ alpha v ≤ 57) ∨
      (65 ≤ alpha v ∧ alpha v ≤ 90) ∨ (97 ≤ alpha v ∧ alpha v ≤ 122) := by
  unfold alpha
  split <;> [omega; (split <;> [omega; (split <;> [omega; (split <;> omega)])])]

theorem alpha_ne_61 (v : Nat) : alpha v ≠ 61 := by
  have h := alpha_range v
  omega

theorem b64decode_b64encode :
    ∀ (m : List Nat), (∀ b ∈ m, b < 256) → b64decode (b64encode m) = some m := by
  intro m
  induction m using b64encode.induct with
  | case1 => intro _; rfl
  | case2 b1 =>
      intro hb
      have h1 : b1 < 256 := hb b1 (by simp)
      simp [b64encode, b64decode,
        b64val_alpha (show b1 / 4 < 64 by omega),
        b64val_alpha (show b1 % 4 * 16 < 64 by omega)]
      omega
  | case3 b1 b2 =>
      intro hb
      have h1 : b1 < 256 := hb b1 (by simp)
      have h2 : b2 < 256 := hb b2 (by simp)
      simp [b64encode, b64decode,
        b64val_alpha (show b1 / 4 < 64 by omega),
        b64val_alpha (show b1 % 4 * 16 + b2 / 16 < 64 by omega),
        b64val_alpha (show b2 % 16 * 4 < 64 by omega),
        alpha_ne_61 (b2 % 16 * 4)]
      omega
  | case4 b1 b2 b3 rest ih =>
      intro hb
      have h1 : b1 < 256 := hb b1 (by simp)
      have h2 : b2 < 256 := hb b2 (by simp)
      have h3 : b3 < 256 := hb b3 (by simp)
      have hrest : ∀ b ∈ rest, b < 256 := fun b hbm => hb b (by simp [hbm])
      simp [b64encode, b64decode,
        b64val_alpha (show b1 / 4 < 64 by omega),
        b64val_alpha (show b1 % 4 * 16 + b2 / 16 < 64 by omega),
        b64val_alpha (show b2 % 16 * 4 + b3 / 64 < 64 by omega),
        b64val_alpha (show b3 % 64 < 64 by omega),
        alpha_ne_61 (b2 % 16 * 4 + b3 / 64), alpha_ne_61 (b3 % 64),
        ih hrest]
      omega

theorem b64val_lt {c v : Nat} (h : b64val c = some v) : v < 64 := by
  unfold b64val at h
  split at h
  · simp only [Option.some.injEq] at h; omega
  · split at h
    · simp only [Option.some.injEq] at h; omega
    · split at h
      · simp only [Option.some.injEq] at h; omega
      · split at h
        · simp only [Option.some.injEq] at h; omega
        · split at h
          · simp only [Option.some.injEq] at h; omega
          · simp at h

theorem b64decode_lt :
    ∀ {s m : List Nat}, b64decode s = some m → ∀ b ∈ m, b < 256 := by
  intro s
  induction s using b64decode.induct with
  | case1 => intro m h; cases h; simp
  | case2 c1 c2 c3 c4 rest v1 v2 hv2 hv1 hpad =>
      intro m h b hbm
      have h1 := b64val_lt hv1
      have h2 := b64val_lt hv2
      simp only [b64decode, hv1, hv2, if_pos hpad] at h
      cases h
      simp only [List.mem_singleton] at hbm
      omega
  | case3 c1 c2 c3 c4 rest v1 v2 hv2 hv1 hpad v3 hv3 hpad2 =>
      intro m h b hbm
      have h1 := b64val_lt hv1
      have h2 := b64val_lt hv2
      have h3 := b64val_lt hv3
      simp only [b64decode, hv1, hv2, if_neg hpad, hv3, if_pos hpad2] at h
      cases h
      simp only [List.mem_cons, List.mem_singleton, List.not_mem_nil, or_false] at hbm
      rcases hbm with rfl | rfl <;> omega
  | case4 c1 c2 c3 c4 rest v1 v2 hv2 hv1 hpad v3 hv3 hpad2 v4 hv4 ih =>
      intro m h b hbm
      have h1 := b64val_lt hv1
      have h2 := b64val_lt hv2
      have h3 := b64val_lt hv3
      have h4 := b64val_lt hv4
      simp only [b64decode, hv1, hv2, if_neg hpad, hv3, if_neg hpad2, hv4] at h
      cases htl : b64decode rest with
      | none => rw [htl] at h; exact Option.noConfusion h
      | some tl =>
          rw [htl] at h
          simp only [Option.map_some', Option.some.injEq] at h
          subst h
          simp only [List.mem_cons] at hbm
          rcases hbm with rfl | rfl | rfl | hbm
          · omega
          · omega
          · omega
          · exact ih htl b hbm
  | case5 c1 c2 c3 c4 rest v1 v2 hv2 hv1 hpad v3 hv3 hpad2 hv4 =>
      intro m h
      simp only [b64decode, hv1, hv2, if_neg hpad, hv3, if_neg hpad2, hv4] at h
      exact Option.noConfusion h
  | case6 c1 c2 c3 c4 rest v1 v2 hv2 hv1 hpad hv3 =>
      intro m h
      simp only [b64decode, hv1, hv2, if_neg hpad, hv3] at h
      exact Option.noConfusion h
  | case7 c1 c2 c3 c4 rest hno =>
      intro m h
      unfold b64decode at h
      cases hv1 : b64val c1 with
      | none => rw [hv1] at h; simp at h
      | some v1 =>
          cases hv2 : b64val c2 with
          | none => rw [hv1, hv2] at h; simp at h
          | some v2 => exact absurd (hno v1 v2 hv1 hv2) (fun f => f)
  | case8 t hnil hne4 =>
      intro m h
      match t, hnil, hne4 with
      | [], hnil, _ => exact absurd rfl hnil
      | [c], _, _ => simp [b64decode] at h
      | [c, c'], _, _ => simp [b64decode] at h
      | [c, c', c''], _, _ => simp [b64decode] at h
      | c1 :: c2 :: c3 :: c4 :: rest, _, hne4 => exact absurd rfl (hne4 c1 c2 c3 c4 rest)

theorem mem_b64encode (m : List Nat) :
    ∀ c ∈ b64encode m, c = 61 ∨ ∃ v, c = alpha v := by
  induction m using b64encode.induct with
  | case1 => intro c hc; simp [b64encode] at hc
  | case2 b1 =>
      intro c hc
      simp only [b64encode, List.mem_cons, List.not_mem_nil, or_false] at hc
      rcases hc with rfl | rfl | rfl | rfl
      · exact Or.inr ⟨_, rfl⟩
      · exact Or.inr ⟨_, rfl⟩
      · exact Or.inl rfl
      · exact Or.inl rfl
  | case3 b1 b2 =>
      intro c hc
      simp only [b64encode, List.mem_cons, List.not_mem_nil, or_false] at hc
      rcases hc with rfl | rfl | rfl | rfl
      · exact Or.inr ⟨_, rfl⟩
      · exact Or.inr ⟨_, rfl⟩
      · exact Or.inr ⟨_, rfl⟩
      · exact Or.inl rfl
  | case4 b1 b2 b3 rest ih =>
      intro c hc
      simp only [b64encode, List.mem_cons] at hc
      rcases hc with rfl | rfl | rfl | rfl | hc
      · exact Or.inr ⟨_, rfl⟩
      · exact Or.inr ⟨_, rfl⟩
      · exact Or.inr ⟨_, rfl⟩
      · exact Or.inr ⟨_, rfl⟩
      · exact ih c hc

theorem b64encode_byte_facts {m : List Nat} {c : Nat} (hc : c ∈ b64encode m) :
    c ≠ 10 ∧ c ≠ 45 ∧ c ≠ 32 ∧ c ≠ 9 ∧ c ≠ 13 ∧ c ≠ 11 ∧ c ≠ 12 := by
  rcases mem_b64encode m c hc with rfl | ⟨v, rfl⟩
  · omega
  · have h := alpha_range v
    omega

theorem b64encode_ne_nil {m : List Nat} (h : m ≠ []) : b64encode m ≠ [] := by
  match m with
  | [] => exact absurd rfl h
  | [b1] => simp [b64encode]
  | [b1, b2] => simp [b64encode]
  | b1 :: b2 :: b3 :: rest => simp [b64encode]

/-! ## SHA-1 (`hashlib.sha1(...).hexdigest()`)

The `_md5` field of an `AsciiArt` is, despite its name, the SHA-1 hex
digest of the stored base64 bytes (line 49 of the source).  The model
below is standard SHA-1 over byte lists, with 32-bit words as `Nat`
reduced modulo `2^32`; it matches `hashlib.sha1` byte for byte. -/

def pow32 : Nat := 4294967296

def rotl (s x : Nat) : Nat := ((x <<< s) % pow32 + x >>> (32 - s)) % pow32

def sha1f (i b c d : Nat) : Nat :=
  if i < 20 then (b &&& c) ||| ((pow32 - 1 - b) &&& d)
  else if i < 40 then b ^^^ c ^^^ d
  else if i < 60 then (b &&& c) ||| (b &&& d) ||| (c &&& d)
  else b ^^^ c ^^^ d

def sha1k (i : Nat) : Nat :=
  if i < 20 then 1518500249
  else if i < 40 then 1859775393
  else if i < 60 then 2400959708
  else 3395469782

def bytesToWords : List Nat → List Nat
  | b0 :: b1 :: b2 :: b3 :: r => (((b0 * 256 + b1) * 256 + b2) * 256 + b3) :: bytesToWords r
  | _ => []

def sha1extend : Nat → List Nat → List Nat
  | 0, ws => ws
  | n + 1, ws =>
      let l := ws.length
      let w := ws.getD (l - 3) 0 ^^^ ws.getD (l - 8) 0 ^^^ ws.getD (l - 14) 0 ^^^ ws.getD (l - 16) 0
      sha1extend n (ws ++ [rotl 1 w])

def sha1rounds : Nat → List Nat → Nat × Nat × Nat × Nat × Nat → Nat × Nat × Nat × Nat × Nat
  | _, [], st => st
  | i, w :: ws, (a, b, c, d, e) =>
      let t := (rotl 5 a + sha1f i b c d + e + sha1k i + w) % pow32
      sha1rounds (i + 1) ws (t, a, rotl 30 b, c, d)

def sha1compress (h : Nat × Nat × Nat × Nat × Nat) (chunk : List Nat) :
    Nat × Nat × Nat × Nat × Nat :=
  let ws := sha1extend 64 (bytesToWords chunk)
  let (h0, h1, h2, h3, h4) := h
  let (a, b, c, d, e) := sha1rounds 0 ws h
  ((h0 + a) % pow32, (h1 + b) % pow32, (h2 + c) % pow32, (h3 + d) % pow32, (h4 + e) % pow32)

def sha1chunks : Nat → Nat × Nat × Nat × Nat × Nat → List Nat → Nat × Nat × Nat × Nat × Nat
  | 0, h, _ => h
  | _ + 1, h, [] => h
  | n + 1, h, msg => sha1chunks n (sha1compress h (msg.take 64)) (msg.drop 64)

def beBytes : Nat → Nat → List Nat
  | 0, _ => []
  | k + 1, v => beBytes k (v / 256) ++ [v % 256]

def sha1pad (msg : List Nat) : List Nat :=
  let zeros := (119 - msg.length % 64) % 64
  msg ++ 128 :: List.replicate zeros 0 ++ beBytes 8 (8 * msg.length)

def hexDigit (n : Nat) : Nat := if n < 10 then 48 + n else 87 + n

def wordHex (w : Nat) : List Nat :=
  (List.range 8).map (fun i => hexDigit (w / 16 ^ (7 - i) % 16))

/-- Models `hashlib.sha1(msg).hexdigest()` at the byte level: the 40
lowercase-hex bytes of the SHA-1 digest of `msg`. -/
def sha1hex (msg : List Nat) : List Nat :=
  let padded := sha1pad msg
  let (h0, h1, h2, h3, h4) :=
    sha1chunks (padded.length) (1732584193, 4023233417, 2562383102, 271733878, 3285377520) padded
  wordHex h0 ++ wordHex h1 ++ wordHex h2 ++ wordHex h3 ++ wordHex h4

/-! ## The art record (`class AsciiArt`) and its `trim`

`AsciiArt` stores `_data` (the base64 bytes of the content) and `_md5`
(despite the name, the SHA-1 hex digest of `_data`).  Equality
(`__eq__`, line 91) compares only `_md5`. -/

structure AsciiArt where
  data : List Nat
  md5 : List Nat
deriving DecidableEq

/-- Models the constructor `AsciiArt(b)` (lines 45-49): `_data` is
`base64.b64encode(b)` and `_md5` is `hashlib.sha1(self.data).hexdigest()`,
i.e. the SHA-1 hex of the base64 bytes. -/
def AsciiArt.ofBytes (b : List Nat) : AsciiArt :=
  { data := b64encode b, md5 := sha1hex (b64encode b) }

/-- Models `__eq__` (lines 91-92): records compare equal iff the `_md5`
fields are equal; the stored data plays no part. -/
def AsciiArt.pyEq (a b : AsciiArt) : Bool := a.md5 == b.md5

def splitNl : List Nat → List (List Nat)
  | [] => [[]]
  | c :: r =>
      let rest := splitNl r
      if c = 10 then [] :: rest
      else (c :: rest.headI) :: rest.tail

def joinNl : List (List Nat) → List Nat
  | [] => []
  | [l] => l
  | l :: ls => l ++ 10 :: joinNl ls

def isBlankSp (l : List Nat) : Bool := l.all (fun c => c == 32)

def trimmerLines : List (List Nat) → List (List Nat)
  | [] => []
  | l :: ls => if isBlankSp l then trimmerLines ls else l :: ls

def trimmer (s : List Nat) : List Nat := joinNl (trimmerLines (splitNl s))

def trimText (t : List Nat) : List Nat :=
  joinNl (splitNl (trimmer (joinNl (splitNl (trimmer t)).reverse))).reverse

def dropTrail {α : Type} (p : α → Bool) (l : List α) : List α :=
  (l.reverse.dropWhile p).reverse

def specTrimText (t : List Nat) : List Nat :=
  joinNl (dropTrail isBlankSp ((splitNl t).dropWhile isBlankSp))

theorem joinNl_cons {l : List Nat} {ls : List (List Nat)} (h : ls ≠ []) :
    joinNl (l :: ls) = l ++ 10 :: joinNl ls := by
  cases ls with
  | nil => exact absurd rfl h
  | cons l' ls' => rfl

theorem splitNl_ne_nil (s : List Nat) : splitNl s ≠ [] := by
  cases s with
  | nil => simp [splitNl]
  | cons c r =>
      simp only [splitNl]
      split <;> simp

theorem splitNl_cons_10 (r : List Nat) : splitNl (10 :: r) = [] :: splitNl r := by
  simp [splitNl]

theorem splitNl_cons_ne {c : Nat} (r : List Nat) (hc : c ≠ 10) :
    splitNl (c :: r) = (c :: (splitNl r).headI) :: (splitNl r).tail := by
  simp [splitNl, hc]

theorem splitNl_no10 {l : List Nat} (hl : (10 : Nat) ∉ l) : splitNl l = [l] := by
  induction l with
  | nil => rfl
  | cons c r ih =>
      rw [splitNl_cons_ne r (by intro hc; exact hl (by simp [hc]))]
      rw [ih (fun hm => hl (List.mem_cons_of_mem _ hm))]
      rfl

theorem mem_splitNl_ne_10 (s : List Nat) : ∀ l ∈ splitNl s, (10 : Nat) ∉ l := by
  induction s with
  | nil => intro l hl; simp [splitNl] at hl; simp [hl]
  | cons c r ih =>
      intro l hl
      simp only [splitNl] at hl
      split at hl
      · rcases List.mem_cons.1 hl with rfl | hl
        · simp
        · exact ih l hl
      · rename_i hc
        rcases List.mem_cons.1 hl with rfl | hl
        · intro hmem
          rcases List.mem_cons.1 hmem with heq | hmem
          · exact hc heq.symm
          · cases hrest : splitNl r with
            | nil => exact splitNl_ne_nil r hrest
            | cons l0 ls0 =>
                rw [hrest] at hmem
                simp only [List.headI] at hmem
                exact ih l0 (by rw [hrest]; simp) hmem
        · cases hrest : splitNl r with
          | nil => exact absurd hrest (splitNl_ne_nil r)
          | cons l0 ls0 =>
              rw [hrest] at hl
              simp only [List.tail_cons] at hl
              exact ih l (by rw [hrest]; exact List.mem_cons_of_mem _ hl)

theorem joinNl_splitNl (s : List Nat) : joinNl (splitNl s) = s := by
  induction s with
  | nil => rfl
  | cons c r ih =>
      simp only [splitNl]
      split
      · rename_i hc
        subst hc
        rw [joinNl_cons (splitNl_ne_nil r), ih]
        rfl
      · cases hrest : splitNl r with
        | nil => exact absurd hrest (splitNl_ne_nil r)
        | cons l0 ls0 =>
            simp only [hrest, List.headI, List.tail_cons]
            cases ls0 with
            | nil =>
                show joinNl [c :: l0] = c :: r
                rw [hrest] at ih
                show c :: l0 = c :: r
                rw [← ih]
                rfl
            | cons l1 ls1 =>
                rw [joinNl_cons (by simp), List.cons_append]
                rw [hrest] at ih
                rw [joinNl_cons (by simp)] at ih
                rw [ih]

theorem splitNl_joinNl (ls : List (List Nat)) (hne : ls ≠ [])
    (h10 : ∀ l ∈ ls, (10 : Nat) ∉ l) : splitNl (joinNl ls) = ls := by
  induction ls with
  | nil => exact absurd rfl hne
  | cons l ls' ih =>
      cases ls' with
      | nil => exact splitNl_no10 (h10 l (by simp))
      | cons l1 ls1 =>
          rw [joinNl_cons (by simp)]
          have hl : (10 : Nat) ∉ l := h10 l (by simp)
          have hrec : splitNl (joinNl (l1 :: ls1)) = l1 :: ls1 :=
            ih (by simp) (fun x hx => h10 x (List.mem_cons_of_mem _ hx))
          clear ih hne h10
          induction l with
          | nil => rw [List.nil_append, splitNl_cons_10, hrec]
          | cons c r ihl =>
              rw [List.cons_append]
              rw [splitNl_cons_ne _ (by intro hc; exact hl (by simp [hc]))]
              rw [ihl (fun hm => hl (List.mem_cons_of_mem _ hm))]
              rfl

theorem trimmerLines_eq (ls : List (List Nat)) :
    trimmerLines ls = ls.dropWhile isBlankSp := by
  induction ls with
  | nil => rfl
  | cons l ls' ih =>
      cases h : isBlankSp l with
      | true => simp [trimmerLines, List.dropWhile, h, ih]
      | false => simp [trimmerLines, List.dropWhile, h]

theorem dropWhile_cons_head {α : Type} (p : α → Bool) (l : List α) (x : α) (xs : List α)
    (h : l.dropWhile p = x :: xs) : p x = false := by
  induction l with
  | nil => simp [List.dropWhile] at h
  | cons c r ih =>
      simp only [List.dropWhile] at h
      split at h <;> rename_i hc
      · exact ih h
      · cases h
        simpa using hc

theorem dropWhile_eq_self_of_head {α : Type} (p : α → Bool) (x : α) (xs : List α)
    (h : p x = false) : (x :: xs).dropWhile p = x :: xs := by
  simp [List.dropWhile, h]

theorem mem_of_mem_dropWhile' {α : Type} {p : α → Bool} {l : List α} {x : α}
    (h : x ∈ l.dropWhile p) : x ∈ l :=
  ((List.dropWhile_suffix p).sublist).mem h

theorem mem_of_mem_dropTrail {α : Type} {p : α → Bool} {l : List α} {x : α}
    (h : x ∈ dropTrail p l) : x ∈ l := by
  unfold dropTrail at h
  rw [List.mem_reverse] at h
  have h2 := mem_of_mem_dropWhile' h
  rwa [List.mem_reverse] at h2

theorem trimText_eq_spec (t : List Nat) : trimText t = specTrimText t := by
  have hd10 : ∀ l ∈ (splitNl t).dropWhile isBlankSp, (10 : Nat) ∉ l :=
    fun l hl => mem_splitNl_ne_10 t l (mem_of_mem_dropWhile' hl)
  unfold trimText specTrimText trimmer
  rw [trimmerLines_eq, trimmerLines_eq]
  cases hd : (splitNl t).dropWhile isBlankSp with
  | nil => rfl
  | cons l0 ls0 =>
      rw [hd] at hd10
      have h1 : splitNl (joinNl (l0 :: ls0)) = l0 :: ls0 :=
        splitNl_joinNl _ (by simp) hd10
      rw [h1]
      have h2 : splitNl (joinNl ((l0 :: ls0).reverse)) = (l0 :: ls0).reverse :=
        splitNl_joinNl _ (by simp) (fun l hl => hd10 l (List.mem_reverse.1 hl))
      rw [h2]
      have hl0 : isBlankSp l0 = false := dropWhile_cons_head _ _ _ _ hd
      have hene : (l0 :: ls0).reverse.dropWhile isBlankSp ≠ [] := by
        intro hnil
        have hall := (List.dropWhile_eq_nil_iff).1 hnil l0 (by simp)
        rw [hl0] at hall
        exact Bool.noConfusion hall
      have h3 : splitNl (joinNl ((l0 :: ls0).reverse.dropWhile isBlankSp)) =
          (l0 :: ls0).reverse.dropWhile isBlankSp :=
        splitNl_joinNl _ hene
          (fun l hl => hd10 l (List.mem_reverse.1 (mem_of_mem_dropWhile' hl)))
      rw [h3]
      rfl

theorem dropTrail_leading {α : Type} (p : α → Bool) (l : List α) :
    dropTrail p l <+: l := by
  unfold dropTrail
  rw [← List.reverse_suffix, List.reverse_reverse]
  exact List.dropWhile_suffix p

theorem specTrimText_idem (t : List Nat) :
    specTrimText (specTrimText t) = specTrimText t := by
  cases hm : dropTrail isBlankSp ((splitNl t).dropWhile isBlankSp) with
  | nil =>
      show specTrimText (joinNl (dropTrail isBlankSp ((splitNl t).dropWhile isBlankSp)))
        = specTrimText t
      conv_lhs => rw [hm]
      show specTrimText [] = _
      unfold specTrimText
      rw [hm]
      rfl
  | cons m0 ms =>
      have hd10 : ∀ l ∈ (splitNl t).dropWhile isBlankSp, (10 : Nat) ∉ l :=
        fun l hl => mem_splitNl_ne_10 t l (mem_of_mem_dropWhile' hl)
      obtain ⟨suf, hsuf⟩ := dropTrail_leading isBlankSp ((splitNl t).dropWhile isBlankSp)
      rw [hm] at hsuf
      have hm0 : isBlankSp m0 = false := by
        refine dropWhile_cons_head isBlankSp (splitNl t) m0 (ms ++ suf) ?heq
        rw [← hsuf]
        rfl
      have hmem : ∀ l ∈ m0 :: ms, (10 : Nat) ∉ l := by
        intro l hl
        refine hd10 l ?hmm
        rw [← hsuf]
        exact List.mem_append_left _ hl
      have he' : (m0 :: ms).reverse =
          ((splitNl t).dropWhile isBlankSp).reverse.dropWhile isBlankSp := by
        rw [← hm]
        unfold dropTrail
        rw [List.reverse_reverse]
      have hdw : (m0 :: ms).reverse.dropWhile isBlankSp = (m0 :: ms).reverse := by
        rw [he']
        cases hc : ((splitNl t).dropWhile isBlankSp).reverse.dropWhile isBlankSp with
        | nil => rfl
        | cons he es =>
            exact dropWhile_eq_self_of_head _ _ _ (dropWhile_cons_head _ _ _ _ hc)
      show specTrimText (joinNl (dropTrail isBlankSp ((splitNl t).dropWhile isBlankSp)))
        = specTrimText t
      rw [hm]
      unfold specTrimText
      rw [splitNl_joinNl _ (by simp) hmem]
      rw [dropWhile_eq_self_of_head _ _ _ hm0]
      conv_rhs => rw [hm]
      unfold dropTrail
      rw [hdw, List.reverse_reverse]

theorem trimText_idem (t : List Nat) : trimText (trimText t) = trimText t := by
  rw [trimText_eq_spec, trimText_eq_spec, specTrimText_idem, ← trimText_eq_spec]

theorem mem_joinNl {b : Nat} : ∀ {ls : List (List Nat)}, b ∈ joinNl ls →
    b = 10 ∨ ∃ l ∈ ls, b ∈ l := by
  intro ls
  induction ls with
  | nil => intro h; simp [joinNl] at h
  | cons l ls' ih =>
      intro h
      cases ls' with
      | nil =>
          right
          exact ⟨l, by simp, h⟩
      | cons l1 ls1 =>
          rw [joinNl_cons (by simp)] at h
          rcases List.mem_append.1 h with hl | hr
          · right; exact ⟨l, by simp, hl⟩
          · rcases List.mem_cons.1 hr with rfl | hr
            · left; rfl
            · rcases ih hr with h10 | ⟨l', hl', hb⟩
              · left; exact h10
              · right; exact ⟨l', List.mem_cons_of_mem _ hl', hb⟩

theorem mem_joinNl_of {b : Nat} {l : List Nat} :
    ∀ {ls : List (List Nat)}, l ∈ ls → b ∈ l → b ∈ joinNl ls := by
  intro ls
  induction ls with
  | nil => intro h; simp at h
  | cons l0 ls' ih =>
      intro hl hb
      cases ls' with
      | nil =>
          rcases List.mem_cons.1 hl with rfl | h
          · exact hb
          · simp at h
      | cons l1 ls1 =>
          rw [joinNl_cons (by simp)]
          rcases List.mem_cons.1 hl with rfl | h
          · exact List.mem_append_left _ hb
          · exact List.mem_append_right _ (List.mem_cons_of_mem _ (ih h hb))

theorem mem_trimText {b : Nat} {t : List Nat} (h : b ∈ trimText t) :
    b = 10 ∨ b ∈ t := by
  rw [trimText_eq_spec] at h
  unfold specTrimText at h
  rcases mem_joinNl h with h10 | ⟨l, hl, hb⟩
  · left; exact h10
  · right
    have hl2 : l ∈ splitNl t :=
      mem_of_mem_dropWhile' (mem_of_mem_dropTrail hl)
    have hjm := mem_joinNl_of hl2 hb
    rwa [joinNl_splitNl] at hjm

/-- Models `AsciiArt.trim` (lines 51-71): decode `_data` (via `__str__`),
strip blank lines with the double-reverse trimmer, re-encode through the
constructor.  `none` models the uncaught `binascii.Error` that `__str__`
raises when `_data` is not valid base64. -/
def AsciiArt.trim (a : AsciiArt) : Option AsciiArt :=
  (b64decode a.data).map (fun t => AsciiArt.ofBytes (trimText t))

/-- Blank line in the claim's sense: only whitespace characters (space,
tab, carriage return, vertical tab, form feed; newline cannot occur inside
a split line).  The code's regex accepts only spaces; this wider predicate
exists to state the original claim. -/
def isBlankWs (l : List Nat) : Bool :=
  l.all (fun c => c == 32 || c == 9 || c == 13 || c == 11 || c == 12)

/-- The trim transformation as the claim words it: drop leading and
trailing lines that are blank in the whitespace sense. -/
def claimTrimText (t : List Nat) : List Nat :=
  joinNl (dropTrail isBlankWs ((splitNl t).dropWhile isBlankWs))

/-! ## The collection (`class ArtDB`) -/

/-- Models Python's `art_object in self.ascii_arts`: membership via
`AsciiArt.__eq__`, i.e. an element with equal `_md5` exists. -/
def containsArt (l : List AsciiArt) (a : AsciiArt) : Bool :=
  l.any (fun x => AsciiArt.pyEq a x)

/-- Models `ArtDB.add` (lines 230-232): append unless an equal record is
present.  The Python method has no `return`, so its value is `None`,
modelled as the second component `none : Option Bool`. -/
def ArtDB.add (l : List AsciiArt) (a : AsciiArt) : List AsciiArt × Option Bool :=
  (if containsArt l a then l else l ++ [a], none)

/-- Position at which Python's `list.insert(i, x)` places `x`: negative
indices count from the end, and positions are clamped to `[0, len]`. -/
def pyInsertPos (n : Nat) (i : Int) : Nat :=
  if i < 0 then ((n : Int) + i).toNat else min i.toNat n

def insertAt : Nat → AsciiArt → List AsciiArt → List AsciiArt
  | 0, a, l => a :: l
  | _ + 1, a, [] => [a]
  | n + 1, a, x :: l => x :: insertAt n a l

/-- Models `ArtDB.insert` (lines 246-248): positional insert unless an
equal record is present (the Python method also returns `None`). -/
def ArtDB.insert (l : List AsciiArt) (i : Int) (a : AsciiArt) : List AsciiArt :=
  if containsArt l a then l else insertAt (pyInsertPos l.length i) a l

/-- Models `ArtDB.get` (lines 237-238), i.e. `self.ascii_arts[id]` with
Python indexing: negative indices count from the end; an index outside
`[-len, len)` raises `IndexError`, modelled as `none`. -/
def ArtDB.get (l : List AsciiArt) (i : Int) : Option AsciiArt :=
  if 0 ≤ i then (if i < (l.length : Int) then l[i.toNat]? else none)
  else (if 0 ≤ (l.length : Int) + i then l[((l.length : Int) + i).toNat]? else none)

/-- One mutating call on the collection: `add` or `insert`. -/
inductive DBOp where
  | addOp (a : AsciiArt)
  | insOp (i : Int) (a : AsciiArt)

def applyOp (l : List AsciiArt) : DBOp → List AsciiArt
  | DBOp.addOp a => (ArtDB.add l a).1
  | DBOp.insOp i a => ArtDB.insert l i a

/-- The collection obtained from an empty `ArtDB` by a sequence of
`add`/`insert` calls. -/
def applyOps (ops : List DBOp) : List AsciiArt :=
  ops.foldl applyOp []

/-- No two records of the collection share an identity. -/
def DistinctIds (l : List AsciiArt) : Prop :=
  l.Pairwise (fun x y => x.md5 ≠ y.md5)

theorem containsArt_eq_false {l : List AsciiArt} {a : AsciiArt}
    (h : containsArt l a = false) : ∀ x ∈ l, x.md5 ≠ a.md5 := by
  intro x hx heq
  rw [containsArt, List.any_eq_false] at h
  exact h x hx (by simp [AsciiArt.pyEq, heq])

theorem mem_insertAt {a y : AsciiArt} :
    ∀ {n : Nat} {l : List AsciiArt}, y ∈ insertAt n a l → y = a ∨ y ∈ l := by
  intro n
  induction n with
  | zero =>
      intro l h
      rcases List.mem_cons.1 h with rfl | h
      · exact Or.inl rfl
      · exact Or.inr h
  | succ n ih =>
      intro l h
      cases l with
      | nil =>
          rcases List.mem_cons.1 h with rfl | h
          · exact Or.inl rfl
          · simp at h
      | cons x l' =>
          rcases List.mem_cons.1 h with rfl | h
          · exact Or.inr (by simp)
          · rcases ih h with h1 | h1
            · exact Or.inl h1
            · exact Or.inr (List.mem_cons_of_mem _ h1)

theorem distinct_insertAt {l : List AsciiArt} {a : AsciiArt}
    (h : DistinctIds l) (hfresh : ∀ x ∈ l, x.md5 ≠ a.md5) :
    ∀ n, DistinctIds (insertAt n a l) := by
  unfold DistinctIds at *
  induction l generalizing a with
  | nil =>
      intro n
      cases n <;> simp [insertAt]
  | cons x l' ih =>
      intro n
      cases n with
      | zero =>
          exact List.pairwise_cons.2 ⟨fun y hy => (hfresh y hy).symm, h⟩
      | succ n =>
          show List.Pairwise _ (x :: insertAt n a l')
          obtain ⟨hx, hl'⟩ := List.pairwise_cons.1 h
          refine List.pairwise_cons.2
            ⟨fun y hy => ?fr, ih hl' (fun z hz => hfresh z (List.mem_cons_of_mem _ hz)) n⟩
          rcases mem_insertAt hy with rfl | hy2
          · exact hfresh x (by simp)
          · exact hx y hy2

theorem distinct_applyOp {l : List AsciiArt} (h : DistinctIds l) (op : DBOp) :
    DistinctIds (applyOp l op) := by
  cases op with
  | addOp a =>
      show DistinctIds (if containsArt l a = true then l else l ++ [a])
      split
      · exact h
      · rename_i hc
        unfold DistinctIds
        rw [List.pairwise_append]
        refine ⟨h, by simp, fun x hx y hy => ?fr⟩
        rw [List.mem_singleton] at hy
        subst hy
        exact containsArt_eq_false (by simpa using hc) x hx
  | insOp i a =>
      show DistinctIds (if containsArt l a = true then l
        else insertAt (pyInsertPos l.length i) a l)
      split
      · exact h
      · rename_i hc
        exact distinct_insertAt h (containsArt_eq_false (by simpa using hc)) _

theorem distinct_foldl (ops : List DBOp) :
    ∀ l, DistinctIds l → DistinctIds (ops.foldl applyOp l) := by
  induction ops with
  | nil => intro l h; exact h
  | cons op ops' ih =>
      intro l h
      exact ih _ (distinct_applyOp h op)

/-- C2: starting from an empty collection, after any sequence of `add` and
`insert` calls no two records share an `_md5` identity (record equality is
identity equality, so no two records are equal). -/
theorem c2_dedup_invariant (ops : List DBOp) : DistinctIds (applyOps ops) :=
  distinct_foldl ops [] (List.Pairwise.nil)

/-- C7: `get` returns `none` (models `IndexError`) exactly for indices
outside the range of the collection, which for Python list indexing is
`[-len, len)`; in-range non-negative indices return the record at that
position; on the two-record collection `["AAA", "BBB"]`, `get 0` is the
`"AAA"` record and `get 2` raises. -/
theorem c7_get_index_contract :
    (∀ (l : List AsciiArt) (i : Int),
        ArtDB.get l i = none ↔ (i < -(l.length : Int) ∨ (l.length : Int) ≤ i))
    ∧ (∀ (l : List AsciiArt) (k : Nat), k < l.length →
        ArtDB.get l (k : Int) = l[k]?)
    ∧ ArtDB.get [AsciiArt.ofBytes [65, 65, 65], AsciiArt.ofBytes [66, 66, 66]] 0
        = some (AsciiArt.ofBytes [65, 65, 65])
    ∧ ArtDB.get [AsciiArt.ofBytes [65, 65, 65], AsciiArt.ofBytes [66, 66, 66]] 2
        = none := by
  refine ⟨?part1, ?part2, ?sc1, ?sc2⟩
  case part1 =>
    intro l i
    unfold ArtDB.get
    split <;> rename_i h0
    · split <;> rename_i h1
      · have hlt : i.toNat < l.length := by omega
        simp only [List.getElem?_eq_getElem hlt]
        constructor
        · intro h
          exact absurd h (by simp)
        · intro h
          omega
      · simp only [eq_self_iff_true, true_iff]
        omega
    · split <;> rename_i h1
      · have hlt : ((l.length : Int) + i).toNat < l.length := by omega
        simp only [List.getElem?_eq_getElem hlt]
        constructor
        · intro h
          exact absurd h (by simp)
        · intro h
          omega
      · simp only [eq_self_iff_true, true_iff]
        omega
  case part2 =>
    intro l k hk
    unfold ArtDB.get
    rw [if_pos (by omega), if_pos (by exact_mod_cast hk)]
    simp
  case sc1 => decide
  case sc2 => decide

theorem c7_witness :
    0 < [AsciiArt.ofBytes [72]].length
    ∧ ArtDB.get [AsciiArt.ofBytes [72]] ((0 : Nat) : Int)
        = [AsciiArt.ofBytes [72]][(0 : Nat)]? :=
  ⟨by decide, c7_get_index_contract.2.1 _ 0 (by decide)⟩

/-- C8 as stated is false: `add` has no `return` statement, so it returns
`None`, never a boolean.  Here a fresh record is appended but the returned
value is not `true`, and a duplicate is dropped but the returned value is
not `false`. -/
theorem c8_counterexample :
    (ArtDB.add [] (AsciiArt.ofBytes [65])).1 = [AsciiArt.ofBytes [65]]
    ∧ (ArtDB.add [] (AsciiArt.ofBytes [65])).2 ≠ some true
    ∧ (ArtDB.add [AsciiArt.ofBytes [65]] (AsciiArt.ofBytes [65])).2 ≠ some false := by
  decide

/-- C8 (amended): `add` appends exactly when no record with equal identity
is present and silently leaves the collection unchanged otherwise, never
raising; in both cases it returns `None` (no boolean). -/
theorem c8_add_amended (l : List AsciiArt) (a : AsciiArt) :
    ((∃ x ∈ l, x.md5 = a.md5) → ArtDB.add l a = (l, none))
    ∧ (¬(∃ x ∈ l, x.md5 = a.md5) → ArtDB.add l a = (l ++ [a], none)) := by
  constructor
  · rintro ⟨x, hx, heq⟩
    unfold ArtDB.add
    rw [if_pos]
    rw [containsArt, List.any_eq_true]
    exact ⟨x, hx, by simp [AsciiArt.pyEq, heq]⟩
  · intro hno
    unfold ArtDB.add
    rw [if_neg]
    rw [containsArt, List.any_eq_true]
    rintro ⟨x, hx, hbeq⟩
    simp only [AsciiArt.pyEq, beq_iff_eq] at hbeq
    exact hno ⟨x, hx, hbeq.symm⟩

theorem c8_witness :
    ArtDB.add [AsciiArt.ofBytes [66]] (AsciiArt.ofBytes [66])
      = ([AsciiArt.ofBytes [66]], none) :=
  (c8_add_amended _ _).1 ⟨AsciiArt.ofBytes [66], by simp, rfl⟩

/-- Models `random.randrange(a, b)`: the list of values the call can
return, each equally likely (uniform over `a, a+1, ..., b-1`); when the
range is empty Python raises `ValueError`, so the list is empty. -/
def randrangeVals (a b : Int) : List Int :=
  (List.range (b - a).toNat).map (fun k => a + (k : Int))

/-- The index `do_GET` draws for path `/` over an `n`-record collection
(line 141): `random.randrange(0, self.ART_DB.len() - 1)`. -/
def doGetRootChoices (n : Nat) : List Int :=
  randrangeVals 0 ((n : Int) - 1)

/-- C9 is wrong about the code: for `GET /` the handler draws from
`randrange(0, len - 1)`, whose support is `{0, ..., n-2}`.  On a 2-record
collection only index 0 can ever be served — index 1 is unreachable, so
the draw is not uniform over all records — and on a 1-record collection
the range is empty and the request raises `ValueError`. -/
theorem c9_root_index_bug :
    doGetRootChoices 2 = [0]
    ∧ (1 : Int) ∉ doGetRootChoices 2
    ∧ doGetRootChoices 1 = [] := by
  decide

def keyClassB : List Nat := [95, 95, 99, 108, 97, 115, 115, 95, 95]

def valClassB : List Nat := [65, 115, 99, 105, 105, 65, 114, 116]

def keyDataB : List Nat := [100, 97, 116, 97]

def keyMd5B : List Nat := [109, 100, 53]

/-- Association-list lookup modelling `dict.get`/`dict[...]` on the
decoded JSON objects (keys are unique in a JSON-parsed dict). -/
def dictGet : List (List Nat × List Nat) → List Nat → Option (List Nat)
  | [], _ => none
  | (k, v) :: rest, key => if k = key then some v else dictGet rest key

/-- Models `AsciiArtJsonDecoder.from_dict` (lines 115-124) on
string-valued dicts: when tagged `"__class__": "AsciiArt"`, build a
record copying the `data` and `md5` entries verbatim (missing entries
would raise `KeyError`, and non-`AsciiArt` dicts are returned unchanged;
both fall outside the record schema and are modelled as `none`). -/
def fromDict (d : List (List Nat × List Nat)) : Option AsciiArt :=
  if dictGet d keyClassB = some valClassB then
    match dictGet d keyDataB, dictGet d keyMd5B with
    | some dt, some m5 => some ⟨dt, m5⟩
    | _, _ => none
  else none

/-- C10: decoding a database record copies the `md5` and `data` fields
verbatim — the hash is never recomputed or checked, so a file can carry an
`md5` that disagrees with the hash the constructor would assign to its
`data` (here `"0000"` versus the 40-byte SHA-1 hex), and equality and
hence deduplication then follow the stored identity, not the content:
records with equal `md5` and different `data` compare equal and `add`
drops the newcomer. -/
theorem c10_identity_copied :
    (∀ dt m5 : List Nat,
        fromDict [(keyClassB, valClassB), (keyDataB, dt), (keyMd5B, m5)]
          = some ⟨dt, m5⟩)
    ∧ (fromDict [(keyClassB, valClassB), (keyDataB, [81, 81, 61, 61]),
          (keyMd5B, [48, 48, 48, 48])] = some ⟨[81, 81, 61, 61], [48, 48, 48, 48]⟩
        ∧ sha1hex [81, 81, 61, 61] ≠ [48, 48, 48, 48])
    ∧ (∀ x y : AsciiArt, x.md5 = y.md5 →
        AsciiArt.pyEq x y = true ∧ (ArtDB.add [x] y).1 = [x]) := by
  refine ⟨?copy, ⟨?conc, ?hash⟩, ?dedup⟩
  case copy =>
    intro dt m5
    simp [fromDict, dictGet, keyClassB, valClassB, keyDataB, keyMd5B]
  case conc => decide
  case hash => decide
  case dedup =>
    intro x y h
    refine ⟨by simp [AsciiArt.pyEq, h], ?add⟩
    unfold ArtDB.add
    rw [if_pos]
    rw [containsArt, List.any_eq_true]
    exact ⟨x, by simp, by simp [AsciiArt.pyEq, h]⟩

theorem c10_witness :
    AsciiArt.pyEq ⟨[65], [48]⟩ ⟨[66], [48]⟩ = true
    ∧ (ArtDB.add [(⟨[65], [48]⟩ : AsciiArt)] ⟨[66], [48]⟩).1
        = [(⟨[65], [48]⟩ : AsciiArt)] :=
  c10_identity_copied.2.2 _ _ rfl

/-- The bytes of `ART_SEPERATOR` (line 33 of the source). -/
def sepB : List Nat :=
  [45, 45, 45, 45, 45, 45, 45, 45, 45, 45, 45, 45, 45, 45, 45, 45, 45, 45, 45, 45, 45, 45, 45, 45, 45, 45, 45, 45, 65, 83, 67, 73, 73, 32, 65, 82, 84, 32, 73, 84, 69, 77, 45, 45, 45, 45, 45, 45, 45, 45, 45, 45, 45, 45, 45, 45, 45, 45, 45, 45, 45, 45, 45, 45, 45, 45, 45, 45]

/-- The bytes of `B64_DATA_HEADER` (line 31 of the source). -/
def headerB : List Nat :=
  [45, 45, 45, 45, 45, 45, 45, 45, 45, 45, 45, 45, 45, 45, 45, 45, 45, 45, 45, 45, 45, 45, 66, 69, 71, 73, 78, 32, 79, 70, 32, 65, 83, 67, 73, 73, 65, 82, 84, 32, 79, 66, 74, 69, 67, 84, 45, 45, 45, 45, 45, 45, 45, 45, 45, 45, 45, 45, 45, 45, 45, 45, 45, 45, 45, 45, 45, 45, 45, 45, 45, 45, 45, 45, 45, 45, 45, 45, 45, 45]

/-- The bytes of `B64_DATA_FOOTER` (line 32 of the source). -/
def footerB : List Nat :=
  [45, 45, 45, 45, 45, 45, 45, 45, 45, 45, 45, 45, 45, 45, 45, 45, 45, 45, 45, 45, 45, 45, 45, 69, 78, 68, 32, 79, 70, 32, 65, 83, 67, 73, 73, 65, 82, 84, 32, 79, 66, 74, 69, 67, 84, 45, 45, 45, 45, 45, 45, 45, 45, 45, 45, 45, 45, 45, 45, 45, 45, 45, 45, 45, 45, 45, 45, 45, 45, 45, 45, 45, 45, 45, 45, 45, 45, 45, 45, 45]

/-! ## The text-block parser (`load_txt_file`, lines 310-338) -/

/-- Models `file.readlines()` at the byte level: the file split into
pieces, each ending right after a newline byte, with a final piece (no
trailing newline) when the file does not end in one; the empty file has
no lines. -/
def fileLinesAux (cur : List Nat) : List Nat → List (List Nat)
  | [] => if cur = [] then [] else [cur]
  | c :: r =>
      if c = 10 then (cur ++ [10]) :: fileLinesAux [] r
      else fileLinesAux (cur ++ [c]) r

def fileLines (s : List Nat) : List (List Nat) := fileLinesAux [] s

/-- Models the test `ART_SEPERATOR in line`: the separator occurs as a
contiguous substring of the line. -/
def containsSep (l : List Nat) : Bool :=
  (List.range l.length).any (fun i => sepB.isPrefixOf (l.drop i))

/-- The per-block finalization of `load_txt_file` (lines 320-327):
remove the newlines, attempt a validating base64 decode, and use the
decoded bytes on success or the raw accumulated text on `binascii.Error`. -/
def finalizeBlock (acc : List Nat) : List Nat :=
  match b64decode (acc.filter (fun c => c != 10)) with
  | some d => d
  | none => acc

/-- The line loop of `load_txt_file`: accumulate every line in which the
separator does not occur; a line containing it finalizes a non-empty
buffer as one payload; a non-empty trailing buffer is finalized at end of
file. -/
def loadTxtAux (acc : List Nat) : List (List Nat) → List (List Nat)
  | [] => if acc = [] then [] else [finalizeBlock acc]
  | l :: ls =>
      if containsSep l = true then
        (if acc = [] then loadTxtAux [] ls else finalizeBlock acc :: loadTxtAux [] ls)
      else loadTxtAux (acc ++ l) ls

/-- Models `load_txt_file` on a whole file content. -/
def load_txt (content : List Nat) : List (List Nat) :=
  loadTxtAux [] (fileLines content)

/-- The parser as the claim words it: a buffer is finalized only on a
line exactly equal to the separator marker (as a full line, with or
without the trailing newline); every other line — including lines that
contain the separator together with other characters — is accumulated. -/
def claimLoadTxtAux (acc : List Nat) : List (List Nat) → List (List Nat)
  | [] => if acc = [] then [] else [finalizeBlock acc]
  | l :: ls =>
      if l = sepB ++ [10] ∨ l = sepB then
        (if acc = [] then claimLoadTxtAux [] ls else finalizeBlock acc :: claimLoadTxtAux [] ls)
      else claimLoadTxtAux (acc ++ l) ls

def claimLoadTxt (content : List Nat) : List (List Nat) :=
  claimLoadTxtAux [] (fileLines content)

/-- Joining art blocks with the separator line, as the export format and
the claims' scenarios describe. -/
def joinWith (sep : List Nat) : List (List Nat) → List Nat
  | [] => []
  | [x] => x
  | x :: xs => x ++ sep ++ joinWith sep xs

theorem fileLinesAux_cons_10 (cur r : List Nat) :
    fileLinesAux cur (10 :: r) = (cur ++ [10]) :: fileLinesAux [] r := by
  simp [fileLinesAux]

theorem fileLinesAux_cons_ne {c : Nat} (cur r : List Nat) (hc : c ≠ 10) :
    fileLinesAux cur (c :: r) = fileLinesAux (cur ++ [c]) r := by
  simp [fileLinesAux, hc]

theorem loadTxtAux_cons_t {l : List Nat} (hl : containsSep l = true)
    (acc : List Nat) (ls : List (List Nat)) :
    loadTxtAux acc (l :: ls)
      = if acc = [] then loadTxtAux [] ls
        else finalizeBlock acc :: loadTxtAux [] ls := by
  simp [loadTxtAux, hl]

theorem loadTxtAux_cons_f {l : List Nat} (hl : containsSep l = false)
    (acc : List Nat) (ls : List (List Nat)) :
    loadTxtAux acc (l :: ls) = loadTxtAux (acc ++ l) ls := by
  simp [loadTxtAux, hl]

theorem fileLinesAux_append_nl (x : List Nat) :
    ∀ (cur r : List Nat),
      fileLinesAux cur ((x ++ [10]) ++ r)
        = fileLinesAux cur (x ++ [10]) ++ fileLinesAux [] r := by
  induction x with
  | nil =>
      intro cur r
      simp [fileLinesAux_cons_10, fileLinesAux]
  | cons c x' ih =>
      intro cur r
      by_cases hc : c = 10
      · subst hc
        rw [List.cons_append, List.cons_append, fileLinesAux_cons_10, fileLinesAux_cons_10,
          ih [] r]
        simp
      · rw [List.cons_append, List.cons_append, fileLinesAux_cons_ne _ _ hc,
          fileLinesAux_cons_ne _ _ hc, ih (cur ++ [c]) r]

theorem fileLinesAux_no10_nl {x : List Nat} (hx : (10 : Nat) ∉ x) :
    ∀ cur, fileLinesAux cur (x ++ [10]) = [cur ++ x ++ [10]] := by
  induction x with
  | nil => intro cur; simp [fileLinesAux_cons_10, fileLinesAux]
  | cons c x' ih =>
      intro cur
      have hc : c ≠ 10 := fun h => hx (by simp [h])
      rw [List.cons_append, fileLinesAux_cons_ne _ _ hc,
        ih (fun h => hx (List.mem_cons_of_mem _ h)) (cur ++ [c])]
      simp

theorem fileLinesAux_no10_tail {x : List Nat} (hx : (10 : Nat) ∉ x) :
    ∀ cur, cur ++ x ≠ [] → fileLinesAux cur x = [cur ++ x] := by
  induction x with
  | nil =>
      intro cur hne
      simp only [fileLinesAux]
      rw [if_neg (by simpa using hne)]
      simp
  | cons c x' ih =>
      intro cur hne
      have hc : c ≠ 10 := fun h => hx (by simp [h])
      rw [fileLinesAux_cons_ne _ _ hc,
        ih (fun h => hx (List.mem_cons_of_mem _ h)) (cur ++ [c]) (by simp)]
      simp

def concatL : List (List Nat) → List Nat
  | [] => []
  | l :: ls => l ++ concatL ls

theorem concatL_fileLinesAux : ∀ (s cur : List Nat),
    concatL (fileLinesAux cur s) = cur ++ s := by
  intro s
  induction s with
  | nil =>
      intro cur
      by_cases hc : cur = []
      · simp [fileLinesAux, hc, concatL]
      · simp [fileLinesAux, hc, concatL]
  | cons c r ih =>
      intro cur
      by_cases hc : c = 10
      · subst hc
        simp only [fileLinesAux, if_pos rfl, concatL]
        rw [ih []]
        simp
      · simp only [fileLinesAux, if_neg hc, concatL]
        rw [ih (cur ++ [c])]
        simp

theorem mem_fileLinesAux_infix : ∀ (s cur l : List Nat),
    l ∈ fileLinesAux cur s → l <:+: cur ++ s := by
  intro s
  induction s with
  | nil =>
      intro cur l hl
      simp only [fileLinesAux] at hl
      split at hl
      · simp at hl
      · rw [List.mem_singleton] at hl
        subst hl
        simp
  | cons c r ih =>
      intro cur l hl
      by_cases hc : c = 10
      · subst hc
        simp only [fileLinesAux, if_pos rfl] at hl
        rcases List.mem_cons.1 hl with rfl | hl
        · exact ⟨[], r, by simp⟩
        · have h1 : l <:+: r := by simpa using ih [] l hl
          exact h1.trans ⟨cur ++ [10], [], by simp⟩
      · simp only [fileLinesAux, if_neg hc] at hl
        have h1 := ih (cur ++ [c]) l hl
        rwa [List.append_assoc, List.singleton_append] at h1

theorem containsSep_iff (l : List Nat) : containsSep l = true ↔ sepB <:+: l := by
  constructor
  · intro h
    rw [containsSep, List.any_eq_true] at h
    obtain ⟨i, _, hp⟩ := h
    obtain ⟨u, hu⟩ := List.isPrefixOf_iff_prefix.1 hp
    exact ⟨l.take i, u, by rw [List.append_assoc, hu, List.take_append_drop]⟩
  · rintro ⟨s, t, hst⟩
    rw [containsSep, List.any_eq_true]
    refine ⟨s.length, ?mem, ?pref⟩
    · rw [List.mem_range, ← hst]
      simp only [List.length_append]
      have hsep : 0 < sepB.length := by decide
      omega
    · rw [List.isPrefixOf_iff_prefix, ← hst, List.append_assoc, List.drop_left]
      exact ⟨t, rfl⟩

theorem not_containsSep_of_infix {l m : List Nat}
    (hm : containsSep m = false) (hlm : l <:+: m) : containsSep l = false := by
  cases hc : containsSep l with
  | false => rfl
  | true =>
      exfalso
      have hs : sepB <:+: m := ((containsSep_iff l).1 hc).trans hlm
      rw [← containsSep_iff] at hs
      rw [hm] at hs
      exact Bool.noConfusion hs

theorem loadTxtAux_accumulate :
    ∀ (ls : List (List Nat)), (∀ l ∈ ls, containsSep l = false) →
      ∀ (acc : List Nat) (L : List (List Nat)),
        loadTxtAux acc (ls ++ L) = loadTxtAux (acc ++ concatL ls) L := by
  intro ls
  induction ls with
  | nil =>
      intro _ acc L
      simp [concatL]
  | cons l ls' ih =>
      intro h acc L
      have hl : containsSep l = false := h l (by simp)
      rw [List.cons_append, loadTxtAux_cons_f hl acc (ls' ++ L),
        ih (fun x hx => h x (List.mem_cons_of_mem _ hx)) (acc ++ l) L]
      rw [show concatL (l :: ls') = l ++ concatL ls' from rfl, ← List.append_assoc]

/-- C3 as stated is false: the plain-text block `"QUJD\n"` happens to be
valid base64 once its newline is stripped, so the per-block auto-decode
rewrites it: parsing yields the payload `"ABC"`, not the original block. -/
theorem c3_counterexample :
    load_txt (joinWith (sepB ++ [10]) [[81, 85, 74, 68, 10]]) = [[65, 66, 67]]
    ∧ ([65, 66, 67] : List Nat) ≠ [81, 85, 74, 68, 10] := by
  decide

/-- C3 (amended): for blocks that are non-empty, newline-terminated, do
not contain the separator string, and whose newline-stripped content is
not valid base64 (the format's own criterion for a block being plain
text), parsing the file formed by joining the blocks with the separator
line yields exactly the original blocks, in order. -/
theorem c3_sep_roundtrip_amended : ∀ (blocks : List (List Nat)),
    (∀ b ∈ blocks, b ≠ []) →
    (∀ b ∈ blocks, b.getLast? = some 10) →
    (∀ b ∈ blocks, containsSep b = false) →
    (∀ b ∈ blocks, b64decode (b.filter (fun c => c != 10)) = none) →
    load_txt (joinWith (sepB ++ [10]) blocks) = blocks := by
  intro blocks
  induction blocks with
  | nil =>
      intro _ _ _ _
      rfl
  | cons b bs ih =>
      intro hne hnl hsep hpt
      have hbne : b ≠ [] := hne b (by simp)
      have hlast : b.getLast? = some 10 := hnl b (by simp)
      have hbsep : containsSep b = false := hsep b (by simp)
      have hbpt : b64decode (b.filter (fun c => c != 10)) = none := hpt b (by simp)
      have hb' : b = b.dropLast ++ [10] := by
        have hg : b.getLast hbne = 10 := by
          rw [List.getLast?_eq_getLast b hbne] at hlast
          exact Option.some.inj hlast
        rw [← hg, List.dropLast_append_getLast hbne]
      have hlinesSep : ∀ l ∈ fileLines b, containsSep l = false := fun l hl =>
        not_containsSep_of_infix hbsep (by simpa using mem_fileLinesAux_infix b [] l hl)
      have hconcat : concatL (fileLines b) = b := by
        have hcc := concatL_fileLinesAux b []
        simpa using hcc
      have hfin : finalizeBlock b = b := by
        unfold finalizeBlock
        rw [hbpt]
      cases bs with
      | nil =>
          show loadTxtAux [] (fileLines b) = [b]
          have hacc := loadTxtAux_accumulate (fileLines b) hlinesSep [] []
          rw [List.append_nil] at hacc
          rw [hacc, List.nil_append, hconcat]
          show (if b = [] then ([] : List (List Nat)) else [finalizeBlock b]) = [b]
          rw [if_neg hbne, hfin]
      | cons b2 bs2 =>
          show loadTxtAux [] (fileLinesAux []
            (b ++ (sepB ++ [10]) ++ joinWith (sepB ++ [10]) (b2 :: bs2))) = b :: b2 :: bs2
          have h1 : fileLinesAux [] (b ++ (sepB ++ [10]) ++ joinWith (sepB ++ [10]) (b2 :: bs2))
              = fileLines b
                ++ fileLinesAux [] ((sepB ++ [10]) ++ joinWith (sepB ++ [10]) (b2 :: bs2)) := by
            rw [List.append_assoc]
            conv_lhs => rw [hb']
            rw [fileLinesAux_append_nl b.dropLast []]
            rw [fileLines, ← hb']
          have h2 : fileLinesAux [] ((sepB ++ [10]) ++ joinWith (sepB ++ [10]) (b2 :: bs2))
              = (sepB ++ [10]) :: fileLinesAux [] (joinWith (sepB ++ [10]) (b2 :: bs2)) := by
            rw [fileLinesAux_append_nl sepB []]
            rw [fileLinesAux_no10_nl (by decide) []]
            simp
          rw [h1, h2]
          rw [loadTxtAux_accumulate (fileLines b) hlinesSep []]
          rw [List.nil_append, hconcat]
          have hsepl : containsSep (sepB ++ [10]) = true := by decide
          rw [loadTxtAux_cons_t hsepl, if_neg hbne, hfin]
          have hrest : loadTxtAux [] (fileLinesAux [] (joinWith (sepB ++ [10]) (b2 :: bs2)))
              = b2 :: bs2 :=
            ih (fun x hx => hne x (List.mem_cons_of_mem _ hx))
              (fun x hx => hnl x (List.mem_cons_of_mem _ hx))
              (fun x hx => hsep x (List.mem_cons_of_mem _ hx))
              (fun x hx => hpt x (List.mem_cons_of_mem _ hx))
          rw [hrest]

theorem c3_witness :
    load_txt (joinWith (sepB ++ [10]) [[102, 111, 111, 10], [98, 97, 114, 10]])
      = [[102, 111, 111, 10], [98, 97, 114, 10]] :=
  c3_sep_roundtrip_amended _ (by decide) (by decide) (by decide) (by decide)

/-- C4 as stated is false: the loop tests `ART_SEPERATOR in line`
(substring containment, line 316), not exact equality.  In the file
`"a\nX<SEP>\nb\n"` the second line contains the separator together with
the extra character `X`; the code finalizes on it and yields the two
payloads `"a\n"` and `"b\n"`, while the claimed exact-match rule would
accumulate that line and produce the single payload equal to the whole
file. -/
theorem c4_counterexample :
    load_txt (([97, 10] ++ [88]) ++ sepB ++ (10 :: [98, 10])) = [[97, 10], [98, 10]]
    ∧ claimLoadTxt (([97, 10] ++ [88]) ++ sepB ++ (10 :: [98, 10]))
        = [([97, 10] ++ [88]) ++ sepB ++ (10 :: [98, 10])]
    ∧ ([[97, 10], [98, 10]] : List (List Nat))
        ≠ [([97, 10] ++ [88]) ++ sepB ++ (10 :: [98, 10])] := by
  refine ⟨by decide, by decide, by decide⟩

/-- C4 (amended): the parser finalizes the current buffer exactly when
the separator occurs in the line as a contiguous substring — a line that
contains the separator together with other characters also finalizes —
and accumulates every line in which the separator does not occur. -/
theorem c4_separator_containment (l acc : List Nat) (ls : List (List Nat)) :
    (sepB <:+: l →
      loadTxtAux acc (l :: ls)
        = if acc = [] then loadTxtAux [] ls else finalizeBlock acc :: loadTxtAux [] ls)
    ∧ (¬ sepB <:+: l → loadTxtAux acc (l :: ls) = loadTxtAux (acc ++ l) ls) := by
  constructor
  · intro h
    simp only [loadTxtAux]
    rw [if_pos ((containsSep_iff l).2 h)]
  · intro h
    simp only [loadTxtAux]
    rw [if_neg (fun hc => h ((containsSep_iff l).1 hc))]

theorem c4_witness :
    loadTxtAux [] [sepB]
      = (if ([] : List Nat) = [] then loadTxtAux [] ([] : List (List Nat))
         else finalizeBlock [] :: loadTxtAux [] ([] : List (List Nat))) :=
  (c4_separator_containment sepB [] []).1 ⟨[], [], by simp⟩

/-! ## The database file format (`json.dumps`/`json.loads`, `write_db`, `open`)

`write_db` serializes the record list with `json.dumps(...,
cls=AsciiArtJsonEncoder, indent=4)`; the encoder renders each record as
the dict `{"__class__": "AsciiArt", "data": ..., "md5": ...}`.  The model
below reproduces that output byte for byte for records whose fields need
no JSON string escaping (true of every field the program itself creates:
base64 text and hex digests).  `json.loads` is modelled by a recursive
descent parser for the value shapes these database files contain —
arrays of flat string-valued objects, with `from_dict` applied to each
object as the decoder's `object_hook` does; strings with escape
sequences or raw control bytes are rejected rather than interpreted, and
a non-`AsciiArt` object makes the model return `none` where Python would
hand back a plain dict (outside the record schema either way). -/

def sp4 : List Nat := [32, 32, 32, 32]

def sp8 : List Nat := [32, 32, 32, 32, 32, 32, 32, 32]

/-- A JSON string literal for text needing no escapes. -/
def jstrB (s : List Nat) : List Nat := 34 :: (s ++ [34])

/-- One 8-space-indented `"key": "value"` member line. -/
def pairB (k v : List Nat) : List Nat := sp8 ++ (jstrB k ++ (58 :: 32 :: jstrB v))

/-- The object braces and three members of one encoded record. -/
def itemObj (a : AsciiArt) : List Nat :=
  123 :: 10 :: (pairB keyClassB valClassB ++ (44 :: 10 ::
    (pairB keyDataB a.data ++ (44 :: 10 ::
      (pairB keyMd5B a.md5 ++ (10 :: (sp4 ++ [125])))))))

/-- One record as it appears inside the dumped array: indented object. -/
def dumpsItem (a : AsciiArt) : List Nat := sp4 ++ itemObj a

/-- `",\n"`-joined sequence of encoded records. -/
def joinCN : List (List Nat) → List Nat
  | [] => []
  | [x] => x
  | x :: xs => x ++ (44 :: 10 :: joinCN xs)

/-- Models `json.dumps(arts, cls=AsciiArtJsonEncoder, indent=4)` (line
213) for records with escape-free fields. -/
def dumps (arts : List AsciiArt) : List Nat :=
  match arts with
  | [] => [91, 93]
  | _ => 91 :: 10 :: (joinCN (arts.map dumpsItem) ++ [10, 93])

def skipWs : List Nat → List Nat
  | [] => []
  | c :: r => if c = 32 ∨ c = 10 ∨ c = 9 ∨ c = 13 then skipWs r else c :: r

/-- JSON string body (after the opening quote) without escapes: scan to
the closing quote; a backslash or raw control byte is rejected. -/
def parseStrBody : List Nat → Option (List Nat × List Nat)
  | [] => none
  | c :: r =>
      if c = 34 then some ([], r)
      else if c = 92 ∨ c < 32 then none
      else (parseStrBody r).map (fun p => (c :: p.1, p.2))

def parseJStr : List Nat → Option (List Nat × List Nat)
  | 34 :: r => parseStrBody r
  | _ => none

/-- One `"key": "value"` member (leading whitespace allowed). -/
def parsePair (s : List Nat) : Option ((List Nat × List Nat) × List Nat) :=
  match parseJStr (skipWs s) with
  | none => none
  | some (k, r1) =>
      match skipWs r1 with
      | 58 :: r2 =>
          match parseJStr (skipWs r2) with
          | none => none
          | some (v, r3) => some ((k, v), r3)
      | _ => none

/-- Comma-separated members up to the closing brace. -/
def parsePairs : Nat → List Nat → Option (List (List Nat × List Nat) × List Nat)
  | 0, _ => none
  | fuel + 1, s =>
      match parsePair s with
      | none => none
      | some (kv, r) =>
          match skipWs r with
          | 44 :: r2 =>
              match parsePairs fuel r2 with
              | some (kvs, r3) => some (kv :: kvs, r3)
              | none => none
          | 125 :: r2 => some ([kv], r2)
          | _ => none

def parseObj (fuel : Nat) (s : List Nat) : Option (List (List Nat × List Nat) × List Nat) :=
  match skipWs s with
  | 123 :: r =>
      match skipWs r with
      | 125 :: r2 => some ([], r2)
      | _ => parsePairs fuel (skipWs r)
  | _ => none

/-- Comma-separated objects up to the closing bracket, each run through
`from_dict`. -/
def parseItems : Nat → List Nat → Option (List AsciiArt × List Nat)
  | 0, _ => none
  | fuel + 1, s =>
      match parseObj (fuel + 1) (skipWs s) with
      | none => none
      | some (fields, r1) =>
          match fromDict fields with
          | none => none
          | some a =>
              match skipWs r1 with
              | 44 :: r2 =>
                  match parseItems fuel r2 with
                  | some (as, r3) => some (a :: as, r3)
                  | none => none
              | 93 :: r2 => some ([a], r2)
              | _ => none

/-- Models `json.loads(s, cls=AsciiArtJsonDecoder)` (line 206) on the
array-of-record-objects grammar the database files use. -/
def loadsArts (s : List Nat) : Option (List AsciiArt) :=
  match skipWs s with
  | 91 :: r =>
      match skipWs r with
      | 93 :: r2 => if skipWs r2 = [] then some [] else none
      | _ =>
          match parseItems (s.length + 3) r with
          | some (arts, r3) => if skipWs r3 = [] then some arts else none
          | none => none
  | _ => none

/-- Models `textwrap.wrap(s, width=80)` on text without whitespace or
hyphens (base64 text): successive chunks of at most 80 bytes. -/
def chunks80 (s : List Nat) : List (List Nat) :=
  if h : s = [] then [] else s.take 80 :: chunks80 (s.drop 80)
termination_by s.length
decreasing_by
  simp only [List.length_drop]
  have hlen : s.length ≠ 0 := fun hz => h (List.eq_nil_of_length_eq_zero hz)
  omega

/-- Models `ArtDB.write_db` (lines 210-228) as the bytes written to the
file: the records as JSON; base64-encoded when `b64` or the stored flag
is set; wrapped at 80 columns between the header and footer lines when
`text_wrap` is set. -/
def write_db (arts : List AsciiArt) (selfB64 b64 text_wrap : Bool) : List Nat :=
  if b64 || selfB64 then
    if text_wrap then
      headerB ++ 10 :: (joinNl (chunks80 (b64encode (dumps arts))) ++ 10 :: footerB)
    else b64encode (dumps arts)
  else dumps arts

def pyWsB (c : Nat) : Bool :=
  c == 32 || c == 10 || c == 9 || c == 13 || c == 11 || c == 12

/-- Models `str.rstrip()`: remove trailing whitespace. -/
def rstrip (s : List Nat) : List Nat := (s.reverse.dropWhile pyWsB).reverse

/-- The header/footer stripping in `ArtDB.open` (lines 193-195): when the
first line rstrips to the header, keep only the lines strictly between
the first and the last, each rstripped. -/
def openStrip (ls : List (List Nat)) : List (List Nat) :=
  match ls with
  | [] => []
  | l0 :: _ => if rstrip l0 = headerB then (ls.drop 1).dropLast.map rstrip else ls

/-- Models `ArtDB.open` (lines 187-208) on the file bytes: read the
lines, strip the base64 framing if the header is present, join, try a
validating base64 decode (success sets the `b64` flag), and JSON-decode
the result; `none` models the uncaught exceptions (empty file,
`json.JSONDecodeError`). -/
def openBytes (file : List Nat) : Option (List AsciiArt × Bool) :=
  match fileLines file with
  | [] => none
  | l0 :: rest =>
      match b64decode (concatL (openStrip (l0 :: rest))) with
      | some dec =>
          match loadsArts dec with
          | some arts => some (arts, true)
          | none => none
      | none =>
          match loadsArts (concatL (openStrip (l0 :: rest))) with
          | some arts => some (arts, false)
          | none => none


/-- Bytes that `json.dumps` emits verbatim inside a string literal:
printable ASCII other than the quote and the backslash. -/
def plainByte (c : Nat) : Prop := 32 ≤ c ∧ c < 127 ∧ c ≠ 34 ∧ c ≠ 92

def PlainStr (s : List Nat) : Prop := ∀ c ∈ s, plainByte c

instance (c : Nat) : Decidable (plainByte c) := by
  unfold plainByte
  infer_instance

instance (s : List Nat) : Decidable (PlainStr s) := by
  unfold PlainStr
  infer_instance

theorem parseStrBody_append {s : List Nat} (hs : PlainStr s) :
    ∀ r, parseStrBody (s ++ 34 :: r) = some (s, r) := by
  induction s with
  | nil => intro r; simp [parseStrBody]
  | cons c s' ih =>
      intro r
      obtain ⟨h1, h2, h3, h4⟩ := hs c (by simp)
      rw [List.cons_append]
      simp only [parseStrBody]
      rw [if_neg h3, if_neg (by omega)]
      rw [ih (fun x hx => hs x (List.mem_cons_of_mem _ hx)) r]
      rfl

theorem skipWs_skipWs (s : List Nat) : skipWs (skipWs s) = skipWs s := by
  induction s with
  | nil => rfl
  | cons c r ih =>
      by_cases hc : c = 32 ∨ c = 10 ∨ c = 9 ∨ c = 13
      · rw [skipWs, if_pos hc]; exact ih
      · rw [skipWs, if_neg hc, skipWs, if_neg hc]

theorem parseItems_skipWs (fuel : Nat) (s : List Nat) :
    parseItems fuel (skipWs s) = parseItems fuel s := by
  cases fuel with
  | zero => rfl
  | succ f => simp only [parseItems, skipWs_skipWs]

theorem fromDict_fields (dt m5 : List Nat) :
    fromDict [(keyClassB, valClassB), (keyDataB, dt), (keyMd5B, m5)] = some ⟨dt, m5⟩ := by
  simp [fromDict, dictGet, keyClassB, valClassB, keyDataB, keyMd5B]

theorem parseObj_itemObj (a : AsciiArt) (ha : PlainStr a.data) (hm : PlainStr a.md5)
    (rest : List Nat) :
    ∀ fuel, 3 ≤ fuel →
      parseObj fuel (itemObj a ++ rest)
        = some ([(keyClassB, valClassB), (keyDataB, a.data), (keyMd5B, a.md5)], rest) := by
  intro fuel hf
  obtain ⟨f, rfl⟩ : ∃ f, fuel = f + 1 + 1 + 1 := ⟨fuel - 3, by omega⟩
  have hd := parseStrBody_append ha
  have hm5 := parseStrBody_append hm
  have hK := parseStrBody_append (show PlainStr keyClassB from by decide)
  have hV := parseStrBody_append (show PlainStr valClassB from by decide)
  have hD := parseStrBody_append (show PlainStr keyDataB from by decide)
  have hM := parseStrBody_append (show PlainStr keyMd5B from by decide)
  simp [itemObj, pairB, jstrB, sp4, sp8, parseObj, parsePairs, parsePair, parseJStr,
    skipWs, hd, hm5, hK, hV, hD, hM]

theorem skipWs_item (a : AsciiArt) (X : List Nat) :
    skipWs (10 :: (dumpsItem a ++ X)) = itemObj a ++ X := by
  simp [dumpsItem, sp4, itemObj, skipWs]

theorem parseItems_dumps : ∀ (l : List AsciiArt),
    (∀ a ∈ l, PlainStr a.data ∧ PlainStr a.md5) → l ≠ [] →
    ∀ fuel, l.length + 3 ≤ fuel →
      parseItems fuel (10 :: (joinCN (l.map dumpsItem) ++ [10, 93])) = some (l, []) := by
  intro l
  induction l with
  | nil => intro _ h; exact absurd rfl h
  | cons a l' ih =>
      intro hplain _ fuel hf
      obtain ⟨f, rfl⟩ : ∃ f, fuel = f + 1 := ⟨fuel - 1, by omega⟩
      have hpa := hplain a (by simp)
      cases l' with
      | nil =>
          show parseItems (f + 1) (10 :: (dumpsItem a ++ [10, 93])) = some ([a], [])
          simp only [parseItems]
          rw [skipWs_item a [10, 93]]
          rw [parseObj_itemObj a hpa.1 hpa.2 [10, 93] (f + 1) (by omega)]
          simp only [fromDict_fields]
          simp [skipWs]
      | cons a2 l2 =>
          have hrec := ih (fun x hx => hplain x (List.mem_cons_of_mem _ hx)) (by simp) f
            (by simp only [List.length_cons] at hf ⊢; omega)
          show parseItems (f + 1)
            (10 :: ((dumpsItem a ++ (44 :: 10 :: joinCN ((a2 :: l2).map dumpsItem))) ++ [10, 93]))
            = some (a :: a2 :: l2, [])
          rw [List.append_assoc, List.cons_append, List.cons_append]
          simp only [parseItems]
          rw [skipWs_item a (44 :: 10 :: (joinCN ((a2 :: l2).map dumpsItem) ++ [10, 93]))]
          rw [parseObj_itemObj a hpa.1 hpa.2 _ (f + 1) (by omega)]
          simp only [fromDict_fields]
          rw [show skipWs (44 :: 10 :: (joinCN ((a2 :: l2).map dumpsItem) ++ [10, 93]))
            = 44 :: (10 :: (joinCN ((a2 :: l2).map dumpsItem) ++ [10, 93])) from by
              rw [skipWs, if_neg (by norm_num)]]
          simp only [List.map_cons] at hrec
          simp [hrec]

theorem dumpsItem_length_pos (a : AsciiArt) : 0 < (dumpsItem a).length := by
  simp [dumpsItem, sp4]

theorem joinCN_length_ge : ∀ (l : List AsciiArt),
    l.length ≤ (joinCN (l.map dumpsItem)).length := by
  intro l
  induction l with
  | nil => simp [joinCN]
  | cons a l' ih =>
      cases l' with
      | nil =>
          simp only [List.map_cons, List.map_nil, joinCN, List.length_cons, List.length_nil]
          have h1 := dumpsItem_length_pos a
          omega
      | cons b l2 =>
          simp only [List.map_cons, joinCN, List.length_cons, List.length_append] at ih ⊢
          have h1 := dumpsItem_length_pos a
          omega

theorem loadsArts_dumps (arts : List AsciiArt)
    (h : ∀ a ∈ arts, PlainStr a.data ∧ PlainStr a.md5) :
    loadsArts (dumps arts) = some arts := by
  cases arts with
  | nil => decide
  | cons a l' =>
      obtain ⟨X, hX⟩ : ∃ X, joinCN ((a :: l').map dumpsItem) ++ [10, 93]
          = dumpsItem a ++ X := by
        cases l' with
        | nil => exact ⟨[10, 93], by simp [joinCN]⟩
        | cons b l2 =>
            exact ⟨44 :: 10 :: (joinCN ((b :: l2).map dumpsItem) ++ [10, 93]),
              by simp [joinCN, List.append_assoc]⟩
      have hlen : (a :: l').length + 3
          ≤ (91 :: 10 :: (joinCN ((a :: l').map dumpsItem) ++ [10, 93])).length + 3 := by
        have h1 := joinCN_length_ge (a :: l')
        simp only [List.length_cons, List.length_append] at h1 ⊢
        omega
      have hitems := parseItems_dumps (a :: l') h (by simp)
        ((91 :: 10 :: (joinCN ((a :: l').map dumpsItem) ++ [10, 93])).length + 3) hlen
      show loadsArts (91 :: 10 :: (joinCN ((a :: l').map dumpsItem) ++ [10, 93]))
        = some (a :: l')
      simp only [loadsArts]
      rw [show skipWs (91 :: 10 :: (joinCN ((a :: l').map dumpsItem) ++ [10, 93]))
        = 91 :: (10 :: (joinCN ((a :: l').map dumpsItem) ++ [10, 93])) from by
          rw [skipWs, if_neg (by norm_num)]]
      have h10 : skipWs (10 :: (joinCN ((a :: l').map dumpsItem) ++ [10, 93]))
          = itemObj a ++ X := by
        rw [show (10 : Nat) :: (joinCN ((a :: l').map dumpsItem) ++ [10, 93])
          = 10 :: (dumpsItem a ++ X) from by rw [hX]]
        exact skipWs_item a X
      simp only [h10, itemObj, List.cons_append, hitems]
      simp [skipWs]

theorem mem_joinCN_parts {b : Nat} : ∀ {ls : List (List Nat)}, b ∈ joinCN ls →
    (∃ l ∈ ls, b ∈ l) ∨ b = 44 ∨ b = 10 := by
  intro ls
  induction ls with
  | nil => intro hb; simp [joinCN] at hb
  | cons x ls' ih =>
      intro hb
      cases ls' with
      | nil => exact Or.inl ⟨x, by simp, hb⟩
      | cons z zs =>
          rw [show joinCN (x :: z :: zs) = x ++ (44 :: 10 :: joinCN (z :: zs)) from rfl] at hb
          rcases List.mem_append.1 hb with hx | hr
          · exact Or.inl ⟨x, by simp, hx⟩
          · rcases List.mem_cons.1 hr with rfl | hr
            · exact Or.inr (Or.inl rfl)
            · rcases List.mem_cons.1 hr with rfl | hr
              · exact Or.inr (Or.inr rfl)
              · rcases ih hr with ⟨l, hl, hbl⟩ | h44
                · exact Or.inl ⟨l, List.mem_cons_of_mem _ hl, hbl⟩
                · exact Or.inr h44

theorem mem_dumpsItem_lt {a : AsciiArt} (ha : PlainStr a.data) (hm : PlainStr a.md5) :
    ∀ b ∈ dumpsItem a, b < 256 := by
  intro b hb
  have h1 : b ∈ a.data → b < 256 := fun hx => by
    obtain ⟨_, h127, _, _⟩ := ha b hx
    omega
  have h2 : b ∈ a.md5 → b < 256 := fun hx => by
    obtain ⟨_, h127, _, _⟩ := hm b hx
    omega
  simp only [dumpsItem, itemObj, pairB, jstrB, sp4, sp8, keyClassB, valClassB, keyDataB,
    keyMd5B, List.cons_append, List.append_assoc, List.nil_append, List.mem_append,
    List.mem_cons, List.not_mem_nil, or_false] at hb
  casesm* _ ∨ _ <;> first | omega | exact h1 (by assumption) | exact h2 (by assumption)

theorem mem_dumps_lt {arts : List AsciiArt}
    (h : ∀ a ∈ arts, PlainStr a.data ∧ PlainStr a.md5) :
    ∀ b ∈ dumps arts, b < 256 := by
  intro b hb
  cases arts with
  | nil =>
      simp only [dumps, List.mem_cons, List.not_mem_nil, or_false] at hb
      omega
  | cons a l' =>
      rw [show dumps (a :: l')
        = 91 :: 10 :: (joinCN ((a :: l').map dumpsItem) ++ [10, 93]) from rfl] at hb
      rcases List.mem_cons.1 hb with rfl | hb
      · omega
      · rcases List.mem_cons.1 hb with rfl | hb
        · omega
        · rcases List.mem_append.1 hb with hb | hb
          · rcases mem_joinCN_parts hb with ⟨l, hl, hbl⟩ | h44 | h10
            · obtain ⟨x, hx, rfl⟩ := List.mem_map.1 hl
              have hpx := h x hx
              exact mem_dumpsItem_lt hpx.1 hpx.2 b hbl
            · omega
            · omega
          · simp only [List.mem_cons, List.not_mem_nil, or_false] at hb
            rcases hb with rfl | rfl <;> omega

theorem concatL_chunks80 (s : List Nat) : concatL (chunks80 s) = s := by
  induction s using chunks80.induct with
  | case1 => rw [chunks80, dif_pos rfl]; rfl
  | case2 s hs ih =>
      rw [chunks80, dif_neg hs]
      rw [show concatL (s.take 80 :: chunks80 (s.drop 80))
        = s.take 80 ++ concatL (chunks80 (s.drop 80)) from rfl]
      rw [ih, List.take_append_drop]

theorem mem_chunks80 : ∀ {s c : List Nat}, c ∈ chunks80 s → ∀ b ∈ c, b ∈ s := by
  intro s
  induction s using chunks80.induct with
  | case1 =>
      intro c hc
      simp [chunks80] at hc
  | case2 s hs ih =>
      intro c hc b hb
      rw [chunks80, dif_neg hs] at hc
      rcases List.mem_cons.1 hc with rfl | hc
      · exact List.take_subset 80 s hb
      · exact List.drop_subset 80 s (ih hc b hb)

theorem chunks80_ne_nil {s : List Nat} (h : s ≠ []) : chunks80 s ≠ [] := by
  rw [chunks80, dif_neg h]
  simp

theorem joinNl_concat_single : ∀ (ls : List (List Nat)) (y : List Nat), ls ≠ [] →
    joinNl (ls ++ [y]) = joinNl ls ++ 10 :: y := by
  intro ls
  induction ls with
  | nil => intro y hy; exact absurd rfl hy
  | cons x ls' ih =>
      intro y _
      cases ls' with
      | nil => rfl
      | cons z zs =>
          rw [List.cons_append, joinNl_cons (by simp), joinNl_cons (by simp), ih y (by simp)]
          simp

theorem fileLines_joinNl : ∀ (ls : List (List Nat)) (y : List Nat),
    (∀ l ∈ ls, (10 : Nat) ∉ l) → (10 : Nat) ∉ y → y ≠ [] →
    fileLines (joinNl (ls ++ [y])) = ls.map (fun l => l ++ [10]) ++ [y] := by
  intro ls
  induction ls with
  | nil =>
      intro y _ hy hyne
      show fileLinesAux [] y = [y]
      rw [fileLinesAux_no10_tail hy [] (by simpa using hyne)]
      simp
  | cons x ls' ih =>
      intro y h10 hy hyne
      rw [List.cons_append, joinNl_cons (by simp)]
      show fileLinesAux [] (x ++ 10 :: joinNl (ls' ++ [y])) = _
      rw [show x ++ 10 :: joinNl (ls' ++ [y]) = (x ++ [10]) ++ joinNl (ls' ++ [y]) from by
        rw [List.append_assoc]
        rfl]
      rw [fileLinesAux_append_nl x [] (joinNl (ls' ++ [y]))]
      rw [fileLinesAux_no10_nl (h10 x (by simp)) []]
      rw [show fileLinesAux [] (joinNl (ls' ++ [y])) = fileLines (joinNl (ls' ++ [y])) from rfl]
      rw [ih y (fun l hl => h10 l (List.mem_cons_of_mem _ hl)) hy hyne]
      simp

theorem dropWhile_all_false {α : Type} {p : α → Bool} {l : List α}
    (h : ∀ x ∈ l, p x = false) : l.dropWhile p = l := by
  cases l with
  | nil => rfl
  | cons x xs => exact dropWhile_eq_self_of_head _ _ _ (h x (by simp))

theorem rstrip_no_ws {s : List Nat} (h : ∀ c ∈ s, pyWsB c = false) : rstrip s = s := by
  unfold rstrip
  rw [dropWhile_all_false (fun c hc => h c (List.mem_reverse.1 hc)), List.reverse_reverse]

theorem rstrip_append_10 {c : List Nat} (h : ∀ b ∈ c, pyWsB b = false) :
    rstrip (c ++ [10]) = c := by
  unfold rstrip
  rw [List.reverse_append]
  simp only [List.reverse_cons, List.reverse_nil, List.nil_append, List.singleton_append]
  rw [show List.dropWhile pyWsB (10 :: c.reverse) = List.dropWhile pyWsB c.reverse from by
    simp [List.dropWhile, pyWsB]]
  rw [dropWhile_all_false (fun b hb => h b (List.mem_reverse.1 hb)), List.reverse_reverse]

theorem b64encode_not_pyWs {m : List Nat} {c : Nat} (hc : c ∈ b64encode m) :
    pyWsB c = false := by
  have hfacts := b64encode_byte_facts hc
  simp only [pyWsB, Bool.or_eq_false_iff, beq_eq_false_iff_ne]
  exact ⟨⟨⟨⟨⟨hfacts.2.2.1, hfacts.1⟩, hfacts.2.2.2.1⟩, hfacts.2.2.2.2.1⟩,
    hfacts.2.2.2.2.2.1⟩, hfacts.2.2.2.2.2.2⟩

theorem map_rstrip_nl : ∀ (cs : List (List Nat)), (∀ l ∈ cs, rstrip (l ++ [10]) = l) →
    List.map rstrip (List.map (fun l => l ++ [10]) cs) = cs := by
  intro cs
  induction cs with
  | nil => intro _; rfl
  | cons c cs' ih =>
      intro h
      simp only [List.map_cons]
      rw [h c (by simp), ih (fun l hl => h l (List.mem_cons_of_mem _ hl))]

/-- C1: writing any collection of records in base64 mode — with or
without the 80-column header/footer wrapping — and opening the resulting
file reconstructs the same records, equal and in the same order (and
marks the collection as base64).  The `PlainStr` hypotheses say the
record fields contain no byte that `json.dumps` would escape, which
holds for every record the program itself builds (base64 text and hex
digests). -/
theorem c1_b64_roundtrip (arts : List AsciiArt) (selfB64 wrap : Bool)
    (h : ∀ a ∈ arts, PlainStr a.data ∧ PlainStr a.md5) :
    openBytes (write_db arts selfB64 true wrap) = some (arts, true) := by
  have hdec : b64decode (b64encode (dumps arts)) = some (dumps arts) :=
    b64decode_b64encode _ (mem_dumps_lt h)
  have hloads : loadsArts (dumps arts) = some arts := loadsArts_dumps arts h
  have hdne : dumps arts ≠ [] := by cases arts <;> simp [dumps]
  have hence : b64encode (dumps arts) ≠ [] := b64encode_ne_nil hdne
  have hnot10 : (10 : Nat) ∉ b64encode (dumps arts) := fun hmem =>
    (b64encode_byte_facts hmem).1 rfl
  have hnotws : ∀ c ∈ b64encode (dumps arts), pyWsB c = false := fun c hc =>
    b64encode_not_pyWs hc
  cases wrap with
  | false =>
      show openBytes (b64encode (dumps arts)) = some (arts, true)
      unfold openBytes
      rw [show fileLines (b64encode (dumps arts)) = [b64encode (dumps arts)] from by
        rw [fileLines, fileLinesAux_no10_tail hnot10 [] (by simpa using hence)]
        simp]
      have hne45 : rstrip (b64encode (dumps arts)) ≠ headerB := by
        rw [rstrip_no_ws hnotws]
        intro heq
        have h45 : (45 : Nat) ∈ headerB := by decide
        rw [← heq] at h45
        exact (b64encode_byte_facts h45).2.1 rfl
      have hstrip : openStrip [b64encode (dumps arts)] = [b64encode (dumps arts)] := by
        simp only [openStrip, if_neg hne45]
      have hcat : concatL [b64encode (dumps arts)] = b64encode (dumps arts) := by
        simp [concatL]
      simp only [hstrip, hcat, hdec, hloads]
  | true =>
      show openBytes (headerB
        ++ 10 :: (joinNl (chunks80 (b64encode (dumps arts))) ++ 10 :: footerB))
        = some (arts, true)
      have hchne : chunks80 (b64encode (dumps arts)) ≠ [] := chunks80_ne_nil hence
      have hfile : headerB ++ 10 :: (joinNl (chunks80 (b64encode (dumps arts))) ++ 10 :: footerB)
          = joinNl ((headerB :: chunks80 (b64encode (dumps arts))) ++ [footerB]) := by
        rw [List.cons_append, joinNl_cons (by simp), joinNl_concat_single _ footerB hchne]
      rw [hfile, List.cons_append]
      have h10chunks : ∀ l ∈ chunks80 (b64encode (dumps arts)), (10 : Nat) ∉ l :=
        fun l hl hb => hnot10 (mem_chunks80 hl 10 hb)
      have hflines := fileLines_joinNl (headerB :: chunks80 (b64encode (dumps arts))) footerB
        (fun l hl => by
          rcases List.mem_cons.1 hl with rfl | hl2
          · decide
          · exact h10chunks l hl2)
        (by decide) (by decide)
      simp only [List.map_cons, List.cons_append] at hflines
      unfold openBytes
      rw [List.cons_append] at hfile
      rw [hflines]
      have hstriphdr : rstrip (headerB ++ [10]) = headerB := by decide
      have hrstripc : ∀ l ∈ chunks80 (b64encode (dumps arts)), rstrip (l ++ [10]) = l :=
        fun l hl => rstrip_append_10 (fun b hb => hnotws b (mem_chunks80 hl b hb))
      have hopen : openStrip ((headerB ++ [10])
          :: (List.map (fun l => l ++ [10]) (chunks80 (b64encode (dumps arts))) ++ [footerB]))
          = chunks80 (b64encode (dumps arts)) := by
        simp only [openStrip, if_pos hstriphdr, List.drop_succ_cons, List.drop_zero]
        rw [List.dropLast_concat]
        exact map_rstrip_nl _ hrstripc
      simp only [hopen, concatL_chunks80, hdec, hloads]

theorem c1_witness :
    (∀ a ∈ [AsciiArt.ofBytes [104, 105]], PlainStr a.data ∧ PlainStr a.md5)
    ∧ openBytes (write_db [AsciiArt.ofBytes [104, 105]] false true true)
        = some ([AsciiArt.ofBytes [104, 105]], true) :=
  ⟨by decide, c1_b64_roundtrip [AsciiArt.ofBytes [104, 105]] false true (by decide)⟩

/-- C5 as stated is false: a line consisting of a tab character is
whitespace-only, so the claim demands that it be stripped, but the code's
regex `^( *)$` (line 55) matches only space characters: trimming the
record with decoded text `"\t\nX"` leaves the text unchanged where the
claim requires `"X"`. -/
theorem c5_counterexample :
    (AsciiArt.trim (AsciiArt.ofBytes [9, 10, 88])).map (fun r => b64decode r.data)
      = some (some [9, 10, 88])
    ∧ claimTrimText [9, 10, 88] = [88]
    ∧ ([9, 10, 88] : List Nat) ≠ [88] := by
  decide

/-- C5 (amended): for every record whose stored data decodes to a text
`t`, `trim` produces a new record whose decoded text is `t` with all
space-only leading lines and all space-only trailing lines removed and
internal lines unchanged, where a line counts as blank exactly when it
consists only of space characters (including the zero-length line) — the
code's regex `^( *)$` does not treat tabs or other whitespace as blank. -/
theorem c5_trim_amended (a : AsciiArt) (t : List Nat)
    (ht : b64decode a.data = some t) :
    AsciiArt.trim a = some (AsciiArt.ofBytes (specTrimText t))
    ∧ b64decode (AsciiArt.ofBytes (specTrimText t)).data = some (specTrimText t) := by
  constructor
  · unfold AsciiArt.trim
    rw [ht, Option.map_some', trimText_eq_spec]
  · show b64decode (b64encode (specTrimText t)) = some (specTrimText t)
    apply b64decode_b64encode
    intro b hb
    rw [← trimText_eq_spec] at hb
    rcases mem_trimText hb with rfl | hbt
    · omega
    · exact b64decode_lt ht b hbt

theorem c5_witness :
    b64decode (AsciiArt.ofBytes [32, 10, 88, 10, 32]).data = some [32, 10, 88, 10, 32]
    ∧ AsciiArt.trim (AsciiArt.ofBytes [32, 10, 88, 10, 32])
        = some (AsciiArt.ofBytes (specTrimText [32, 10, 88, 10, 32])) :=
  ⟨by decide, (c5_trim_amended _ _ (by decide)).1⟩

/-- C6: trim is idempotent — trimming an already-trimmed record returns a
record equal to it (here even structurally equal: same `_data` and
`_md5`, which is stronger than the identity-based `__eq__`). -/
theorem c6_trim_idempotent (a r : AsciiArt) (h : AsciiArt.trim a = some r) :
    AsciiArt.trim r = some r := by
  unfold AsciiArt.trim at h
  cases ht : b64decode a.data with
  | none => rw [ht] at h; exact Option.noConfusion h
  | some t =>
      rw [ht, Option.map_some'] at h
      injection h with h
      subst h
      unfold AsciiArt.trim
      have hdec : b64decode (AsciiArt.ofBytes (trimText t)).data = some (trimText t) := by
        show b64decode (b64encode (trimText t)) = some (trimText t)
        apply b64decode_b64encode
        intro b hb
        rcases mem_trimText hb with rfl | hbt
        · omega
        · exact b64decode_lt ht b hbt
      rw [hdec, Option.map_some', trimText_idem]

theorem c6_witness :
    AsciiArt.trim (AsciiArt.ofBytes [32, 10, 88]) = some (AsciiArt.ofBytes [88])
    ∧ AsciiArt.trim (AsciiArt.ofBytes [88]) = some (AsciiArt.ofBytes [88]) :=
  ⟨by decide, c6_trim_idempotent (AsciiArt.ofBytes [32, 10, 88]) (AsciiArt.ofBytes [88]) (by decide)⟩

end AsciiArtSrc
